import Mathlib

/-!
Shallow embedding of the `Filters` library (`filters.py`): a first-order
low-pass filter, a second-order low-pass filter and a moving-average filter.
Real-valued samples are modelled by `ℝ`; the mutable Python objects become
immutable records threaded through the operations; the exception raised at
construction when the transform name has no matching `init_` method becomes
an `Except` error value.

A modelling caveat: division on `ℝ` is total, while the source raises a
`ZeroDivisionError` when a coefficient denominator is exactly zero (for
instance `2 + wc*Te = 0` in the first-order bilinear formula, or `den = 0`
in the second-order one). Every theorem below that reaches outside the
positive-parameter regime therefore carries an explicit nonzero-denominator
hypothesis, so that nothing is asserted on the collapsed error path.
-/

open Real Filter

noncomputable section

namespace Filters

/-- The only construction-time failure present in the code: dispatching
`'init_' + transform` on an unknown transform name raises. -/
inductive FilterError where
  | unsupportedTransform
deriving DecidableEq

/-! ## First order low-pass filter (`LP_first_order`) -/

structure LP_first_order where
  Cy1 : ℝ
  Cx0 : ℝ
  Cx1 : ℝ
  y_k1 : ℝ
  x_k1 : ℝ

namespace LP_first_order

/-- `reset`: zero the two state variables, keep the coefficients. -/
def reset (f : LP_first_order) : LP_first_order :=
  { f with y_k1 := 0, x_k1 := 0 }

def init_bilinear (f : LP_first_order) (Te wc : ℝ) : LP_first_order :=
  let Cy1 := (2 - wc * Te) / (2 + wc * Te)
  let Cx0 := wc * Te / (2 + wc * Te)
  { f with Cy1 := Cy1, Cx0 := Cx0, Cx1 := Cx0 }

def init_homographic (f : LP_first_order) (Te wc : ℝ) : LP_first_order :=
  let twt := Real.tan (wc * Te / 2)
  let Cy1 := (1 - twt) / (1 + twt)
  let Cx0 := twt / (1 + twt)
  { f with Cy1 := Cy1, Cx0 := Cx0, Cx1 := Cx0 }

def init_step_matching (f : LP_first_order) (Te wc : ℝ) : LP_first_order :=
  let ewt := Real.exp (-(wc * Te))
  { f with Cy1 := ewt, Cx0 := 0, Cx1 := 1 - ewt }

def init_impulse_matching (f : LP_first_order) (Te wc : ℝ) : LP_first_order :=
  let ewt := Real.exp (-(wc * Te))
  { f with Cy1 := ewt, Cx0 := 1 - ewt, Cx1 := 0 }

/-- `__init__`: reset the state, then dispatch on the transform name;
a name with no matching `init_` method aborts construction. -/
def make (Te wc : ℝ) (transform : String) : Except FilterError LP_first_order :=
  let f := reset ⟨0, 0, 0, 0, 0⟩
  match transform with
  | "bilinear" => .ok (f.init_bilinear Te wc)
  | "homographic" => .ok (f.init_homographic Te wc)
  | "step_matching" => .ok (f.init_step_matching Te wc)
  | "impulse_matching" => .ok (f.init_impulse_matching Te wc)
  | _ => .error .unsupportedTransform

/-- `_feed`: one step of the recursion, returning the new output and state. -/
def feed (f : LP_first_order) (x_k0 : ℝ) : ℝ × LP_first_order :=
  let y_k0 := f.Cy1 * f.y_k1 + f.Cx0 * x_k0 + f.Cx1 * f.x_k1
  (y_k0, { f with y_k1 := y_k0, x_k1 := x_k0 })

end LP_first_order

/-! ## Second order low-pass filter (`LP_second_order`) -/

structure LP_second_order where
  Cy1 : ℝ
  Cy2 : ℝ
  Cx0 : ℝ
  Cx1 : ℝ
  Cx2 : ℝ
  y_k1 : ℝ
  y_k2 : ℝ
  x_k1 : ℝ
  x_k2 : ℝ

namespace LP_second_order

def reset (f : LP_second_order) : LP_second_order :=
  { f with y_k1 := 0, x_k1 := 0, y_k2 := 0, x_k2 := 0 }

def init_bilinear (f : LP_second_order) (Te w0 Q : ℝ) : LP_second_order :=
  let w2T2 := (w0 * Te) ^ 2
  let den := 2 * w0 * Te + 4 * Q + Q * w2T2
  let Cy1 := 2 * Q * (4 - w2T2) / den
  let Cy2 := (2 * w0 * Te - 4 * Q - Q * w2T2) / den
  let Cx0 := Q * w2T2 / den
  { f with Cy1 := Cy1, Cy2 := Cy2, Cx0 := Cx0, Cx1 := 2 * Cx0, Cx2 := Cx0 }

/-- `__init__`: only `init_bilinear` exists on this class. -/
def make (Te w0 Q : ℝ) (transform : String) : Except FilterError LP_second_order :=
  let f := reset ⟨0, 0, 0, 0, 0, 0, 0, 0, 0⟩
  match transform with
  | "bilinear" => .ok (f.init_bilinear Te w0 Q)
  | _ => .error .unsupportedTransform

def feed (f : LP_second_order) (x_k0 : ℝ) : ℝ × LP_second_order :=
  let y_k0 := f.Cy1 * f.y_k1 + f.Cy2 * f.y_k2 + f.Cx0 * x_k0
    + f.Cx1 * f.x_k1 + f.Cx2 * f.x_k2
  (y_k0, { f with y_k2 := f.y_k1, y_k1 := y_k0, x_k2 := f.x_k1, x_k1 := x_k0 })

end LP_second_order

/-! ## Moving average filter (`Moving_average`) -/

structure Moving_average where
  N : ℕ
  buffer : List ℝ
  i : ℕ
  y_k0 : ℝ

namespace Moving_average

/-- `reset`: rebuild the zero buffer of length `N`, zero the cursor and sum. -/
def reset (m : Moving_average) : Moving_average :=
  { m with buffer := List.replicate m.N 0, i := 0, y_k0 := 0 }

/-- `__init__`: record `N`, then reset. -/
def make (N : ℕ) : Moving_average :=
  reset { N := N, buffer := [], i := 0, y_k0 := 0 }

/-- `_feed`: subtract the slot under the cursor from the running sum,
overwrite it with `x_k0 / N`, add it back, advance the cursor modulo `N`. -/
def feed (m : Moving_average) (x_k0 : ℝ) : ℝ × Moving_average :=
  let y1 := m.y_k0 - m.buffer.getD m.i 0
  let buf := m.buffer.set m.i (x_k0 / (m.N : ℝ))
  let y2 := y1 + buf.getD m.i 0
  let i1 := m.i + 1
  let i2 := if m.N ≤ i1 then 0 else i1
  (y2, { m with buffer := buf, i := i2, y_k0 := y2 })

end Moving_average

/-! ## The shared `__call__` contract on ordered sequences

Each filter's `__call__` on an iterable is the list comprehension
`[ self._feed( x ) for x in input ]`: feed each element in order,
collecting the outputs. -/

def processSeq {σ : Type} (step : σ → ℝ → ℝ × σ) : σ → List ℝ → List ℝ × σ
  | s, [] => ([], s)
  | s, x :: xs =>
    let r := step s x
    let rest := processSeq step r.2 xs
    (r.1 :: rest.1, rest.2)

def LP_first_order.call (f : LP_first_order) (input : List ℝ) :
    List ℝ × LP_first_order :=
  processSeq LP_first_order.feed f input

def LP_second_order.call (f : LP_second_order) (input : List ℝ) :
    List ℝ × LP_second_order :=
  processSeq LP_second_order.feed f input

def Moving_average.call (m : Moving_average) (input : List ℝ) :
    List ℝ × Moving_average :=
  processSeq Moving_average.feed m input

/-- State obtained by feeding the elements one by one, in order. -/
def feedFold {σ : Type} (step : σ → ℝ → ℝ × σ) (s : σ) (xs : List ℝ) : σ :=
  xs.foldl (fun t x => (step t x).2) s

/-- The last `N` samples of the zero-padded history `xs`, oldest first:
samples not yet fed count as zero. -/
def maWindow (N : ℕ) (xs : List ℝ) : List ℝ :=
  (List.replicate N (0 : ℝ) ++ xs).drop xs.length

/-- The circular-buffer invariant of the moving average after feeding `xs`:
the window length and buffer length are `N`, the cursor is the number of
samples modulo `N`, the buffer read circularly from the cursor holds the
last `N` zero-padded samples each divided by `N`, and the running sum is the
buffer's sum. -/
def MAinv (N : ℕ) (xs : List ℝ) (m : Moving_average) : Prop :=
  m.N = N ∧ m.buffer.length = N ∧ m.i = xs.length % N ∧
    m.buffer.drop m.i ++ m.buffer.take m.i =
      (maWindow N xs).map (· / (N : ℝ)) ∧
    m.y_k0 = m.buffer.sum

/-- State of the first-order filter after `k` feeds of the constant `c`. -/
def LP_first_order.iterateConst (f : LP_first_order) (c : ℝ) : ℕ → LP_first_order
  | 0 => f
  | k + 1 => ((iterateConst f c k).feed c).2

/-- Output of the `(k+1)`-th feed of the constant `c` (the output of each
feed is the `y_k1` it stores). -/
def LP_first_order.constOutput (f : LP_first_order) (c : ℝ) (k : ℕ) : ℝ :=
  (f.iterateConst c (k + 1)).y_k1

/-! ## Generic lemmas about the sequence-processing contract -/

theorem processSeq_nil {σ : Type} (step : σ → ℝ → ℝ × σ) (s : σ) :
    processSeq step s [] = ([], s) := rfl

theorem processSeq_cons {σ : Type} (step : σ → ℝ → ℝ × σ) (s : σ) (x : ℝ)
    (xs : List ℝ) :
    processSeq step s (x :: xs) =
      ((step s x).1 :: (processSeq step (step s x).2 xs).1,
        (processSeq step (step s x).2 xs).2) := rfl

theorem processSeq_length {σ : Type} (step : σ → ℝ → ℝ × σ) :
    ∀ (xs : List ℝ) (s : σ), (processSeq step s xs).1.length = xs.length := by
  intro xs
  induction xs with
  | nil => intro s; rfl
  | cons x xs ih => intro s; simp [processSeq_cons, ih]

theorem processSeq_state {σ : Type} (step : σ → ℝ → ℝ × σ) :
    ∀ (xs : List ℝ) (s : σ), (processSeq step s xs).2 = feedFold step s xs := by
  intro xs
  induction xs with
  | nil => intro s; rfl
  | cons x xs ih => intro s; simp [processSeq_cons, feedFold, ih, List.foldl_cons]

theorem processSeq_append {σ : Type} (step : σ → ℝ → ℝ × σ) :
    ∀ (xs ys : List ℝ) (s : σ),
      processSeq step s (xs ++ ys) =
        ((processSeq step s xs).1 ++ (processSeq step (processSeq step s xs).2 ys).1,
          (processSeq step (processSeq step s xs).2 ys).2) := by
  intro xs
  induction xs with
  | nil => intro ys s; rfl
  | cons x xs ih => intro ys s; simp [processSeq_cons, ih]

theorem processSeq_getD {σ : Type} (step : σ → ℝ → ℝ × σ) :
    ∀ (xs : List ℝ) (s : σ) (i : ℕ), i < xs.length →
      (processSeq step s xs).1.getD i 0 =
        (step (feedFold step s (xs.take i)) (xs.getD i 0)).1 := by
  intro xs
  induction xs with
  | nil => intro s i h; exact absurd h (by simp)
  | cons x xs ih =>
    intro s i h
    cases i with
    | zero => simp [processSeq_cons, feedFold]
    | succ j =>
      have hj : j < xs.length := by simpa using h
      have hih := ih (step s x).2 j hj
      rw [processSeq_cons]
      simpa [feedFold, List.getD_cons_succ] using hih

/-! ## State-zeroing and coefficient-preservation lemmas -/

theorem LP_first_order.feed_coeffs (f : LP_first_order) (x : ℝ) :
    ((f.feed x).2).Cy1 = f.Cy1 ∧ ((f.feed x).2).Cx0 = f.Cx0 ∧
      ((f.feed x).2).Cx1 = f.Cx1 := ⟨rfl, rfl, rfl⟩

theorem lp1_call_coeffs :
    ∀ (xs : List ℝ) (f : LP_first_order),
      ((f.call xs).2).Cy1 = f.Cy1 ∧ ((f.call xs).2).Cx0 = f.Cx0 ∧
        ((f.call xs).2).Cx1 = f.Cx1 := by
  intro xs
  induction xs with
  | nil => intro f; exact ⟨rfl, rfl, rfl⟩
  | cons x xs ih =>
    intro f
    simpa [LP_first_order.call, processSeq_cons] using ih (f.feed x).2

theorem lp2_call_coeffs :
    ∀ (xs : List ℝ) (g : LP_second_order),
      ((g.call xs).2).Cy1 = g.Cy1 ∧ ((g.call xs).2).Cy2 = g.Cy2 ∧
        ((g.call xs).2).Cx0 = g.Cx0 ∧ ((g.call xs).2).Cx1 = g.Cx1 ∧
          ((g.call xs).2).Cx2 = g.Cx2 := by
  intro xs
  induction xs with
  | nil => intro g; exact ⟨rfl, rfl, rfl, rfl, rfl⟩
  | cons x xs ih =>
    intro g
    simpa [LP_second_order.call, processSeq_cons] using ih (g.feed x).2

theorem Moving_average.call_N :
    ∀ (xs : List ℝ) (m : Moving_average), ((m.call xs).2).N = m.N := by
  intro xs
  induction xs with
  | nil => intro m; rfl
  | cons x xs ih =>
    intro m
    simpa [Moving_average.call, processSeq_cons] using ih (m.feed x).2

/-- A first-order filter freshly produced by `make` has zero state. -/
theorem lp1_make_state {Te wc : ℝ} {tr : String} {f : LP_first_order}
    (h : LP_first_order.make Te wc tr = .ok f) : f.y_k1 = 0 ∧ f.x_k1 = 0 := by
  unfold LP_first_order.make at h
  split at h <;> simp_all <;>
    simp [← h, LP_first_order.init_bilinear, LP_first_order.init_homographic,
      LP_first_order.init_step_matching, LP_first_order.init_impulse_matching,
      LP_first_order.reset]

/-- A second-order filter freshly produced by `make` has zero state. -/
theorem lp2_make_state {Te w0 Q : ℝ} {tr : String} {g : LP_second_order}
    (h : LP_second_order.make Te w0 Q tr = .ok g) :
    g.y_k1 = 0 ∧ g.y_k2 = 0 ∧ g.x_k1 = 0 ∧ g.x_k2 = 0 := by
  unfold LP_second_order.make at h
  split at h <;> simp_all <;>
    simp [← h, LP_second_order.init_bilinear, LP_second_order.reset]

/-! ## Claim theorems: construction -/

/-- Claim C2: for every `Te > 0` and `wc > 0`, first-order construction sets the
coefficients exactly as the spec's table for each of the four transforms:
bilinear `Cy1 = (2-wc*Te)/(2+wc*Te)`, `Cx0 = Cx1 = wc*Te/(2+wc*Te)`;
homographic `Cy1 = (1-tan(wc*Te/2))/(1+tan(wc*Te/2))`,
`Cx0 = Cx1 = tan(wc*Te/2)/(1+tan(wc*Te/2))`; step_matching `Cy1 = exp(-wc*Te)`,
`Cx0 = 0`, `Cx1 = 1-exp(-wc*Te)`; impulse_matching `Cy1 = exp(-wc*Te)`,
`Cx0 = 1-exp(-wc*Te)`, `Cx1 = 0`; in every case with zero initial state. -/
theorem first_order_coefficient_formulas (Te wc : ℝ)
    (_hT : 0 < Te) (_hw : 0 < wc) :
    LP_first_order.make Te wc "bilinear" =
      .ok ⟨(2 - wc * Te) / (2 + wc * Te), wc * Te / (2 + wc * Te),
        wc * Te / (2 + wc * Te), 0, 0⟩ ∧
    LP_first_order.make Te wc "homographic" =
      .ok ⟨(1 - Real.tan (wc * Te / 2)) / (1 + Real.tan (wc * Te / 2)),
        Real.tan (wc * Te / 2) / (1 + Real.tan (wc * Te / 2)),
        Real.tan (wc * Te / 2) / (1 + Real.tan (wc * Te / 2)), 0, 0⟩ ∧
    LP_first_order.make Te wc "step_matching" =
      .ok ⟨Real.exp (-(wc * Te)), 0, 1 - Real.exp (-(wc * Te)), 0, 0⟩ ∧
    LP_first_order.make Te wc "impulse_matching" =
      .ok ⟨Real.exp (-(wc * Te)), 1 - Real.exp (-(wc * Te)), 0, 0, 0⟩ :=
  ⟨rfl, rfl, rfl, rfl⟩

/-- Witness for C2 at `Te = 1`, `wc = 1`. -/
theorem first_order_coefficient_formulas_witness :
    LP_first_order.make 1 1 "bilinear" =
      .ok ⟨(2 - 1 * 1) / (2 + 1 * 1), 1 * 1 / (2 + 1 * 1),
        1 * 1 / (2 + 1 * 1), 0, 0⟩ ∧
    LP_first_order.make 1 1 "homographic" =
      .ok ⟨(1 - Real.tan (1 * 1 / 2)) / (1 + Real.tan (1 * 1 / 2)),
        Real.tan (1 * 1 / 2) / (1 + Real.tan (1 * 1 / 2)),
        Real.tan (1 * 1 / 2) / (1 + Real.tan (1 * 1 / 2)), 0, 0⟩ ∧
    LP_first_order.make 1 1 "step_matching" =
      .ok ⟨Real.exp (-(1 * 1)), 0, 1 - Real.exp (-(1 * 1)), 0, 0⟩ ∧
    LP_first_order.make 1 1 "impulse_matching" =
      .ok ⟨Real.exp (-(1 * 1)), 1 - Real.exp (-(1 * 1)), 0, 0, 0⟩ :=
  first_order_coefficient_formulas 1 1 (by norm_num) (by norm_num)

/-- Claim C3: for every `Te > 0`, `w0 > 0`, `Q > 0`, second-order bilinear
construction sets, with `w2T2 = (w0*Te)^2` and `den = 2*w0*Te + 4*Q + Q*w2T2`,
exactly `Cy1 = 2*Q*(4-w2T2)/den`, `Cy2 = (2*w0*Te-4*Q-Q*w2T2)/den`,
`Cx0 = Q*w2T2/den`, `Cx1 = 2*Cx0`, `Cx2 = Cx0`, with zero initial state. -/
theorem second_order_coefficient_formulas (Te w0 Q : ℝ)
    (_hT : 0 < Te) (_hw : 0 < w0) (_hQ : 0 < Q) :
    LP_second_order.make Te w0 Q "bilinear" =
      .ok ⟨2 * Q * (4 - (w0 * Te) ^ 2) / (2 * w0 * Te + 4 * Q + Q * (w0 * Te) ^ 2),
        (2 * w0 * Te - 4 * Q - Q * (w0 * Te) ^ 2)
          / (2 * w0 * Te + 4 * Q + Q * (w0 * Te) ^ 2),
        Q * (w0 * Te) ^ 2 / (2 * w0 * Te + 4 * Q + Q * (w0 * Te) ^ 2),
        2 * (Q * (w0 * Te) ^ 2 / (2 * w0 * Te + 4 * Q + Q * (w0 * Te) ^ 2)),
        Q * (w0 * Te) ^ 2 / (2 * w0 * Te + 4 * Q + Q * (w0 * Te) ^ 2),
        0, 0, 0, 0⟩ := rfl

/-- Witness for C3 at `Te = 1`, `w0 = 1`, `Q = 1`. -/
theorem second_order_coefficient_formulas_witness :
    LP_second_order.make 1 1 1 "bilinear" =
      .ok ⟨2 * 1 * (4 - (1 * 1) ^ 2) / (2 * 1 * 1 + 4 * 1 + 1 * (1 * 1) ^ 2),
        (2 * 1 * 1 - 4 * 1 - 1 * (1 * 1) ^ 2)
          / (2 * 1 * 1 + 4 * 1 + 1 * (1 * 1) ^ 2),
        1 * (1 * 1) ^ 2 / (2 * 1 * 1 + 4 * 1 + 1 * (1 * 1) ^ 2),
        2 * (1 * (1 * 1) ^ 2 / (2 * 1 * 1 + 4 * 1 + 1 * (1 * 1) ^ 2)),
        1 * (1 * 1) ^ 2 / (2 * 1 * 1 + 4 * 1 + 1 * (1 * 1) ^ 2),
        0, 0, 0, 0⟩ :=
  second_order_coefficient_formulas 1 1 1 (by norm_num) (by norm_num) (by norm_num)

/-- Claim C5: a transform name not recognized for the given filter (first
order: not one of the four `init_` methods; second order: not `bilinear`)
makes construction fail with the unsupported-transform error, producing no
filter instance and computing no coefficient. -/
theorem unsupported_transform_fails (Te wc w0 Q : ℝ) (tr1 tr2 : String)
    (h1 : tr1 ∉ ["bilinear", "homographic", "step_matching", "impulse_matching"])
    (h2 : tr2 ≠ "bilinear") :
    LP_first_order.make Te wc tr1 = .error .unsupportedTransform ∧
      LP_second_order.make Te w0 Q tr2 = .error .unsupportedTransform := by
  constructor
  · unfold LP_first_order.make
    split <;> simp_all
  · unfold LP_second_order.make
    split <;> simp_all

/-- Witness for C5 with the unknown transform name `"butterworth"`. -/
theorem unsupported_transform_fails_witness :
    LP_first_order.make 1 1 "butterworth" = .error .unsupportedTransform ∧
      LP_second_order.make 1 1 1 "butterworth" = .error .unsupportedTransform :=
  unsupported_transform_fails 1 1 1 1 "butterworth" "butterworth"
    (by decide) (by decide)

/-- Counterexample to claim C6: construction with non-positive parameters
succeeds instead of failing — `LP_first_order` with `Te = -1`,
`LP_second_order` with `Te = -1` and `Q = -1`, and `Moving_average` with
`N = 0` all construct without any error. -/
theorem construction_accepts_nonpositive_parameters :
    (LP_first_order.make (-1) 1 "bilinear").isOk = true ∧
      (LP_second_order.make (-1) 1 (-1) "bilinear").isOk = true ∧
      Moving_average.make 0 = ⟨0, [], 0, 0⟩ :=
  ⟨rfl, rfl, rfl⟩

/-- Claim C6 as amended: construction performs no parameter validation and
no invalid-parameter error exists — with a supported transform it proceeds
straight to the coefficient formulas, so it succeeds whenever those formulas
divide by no zero denominator (the only failure the code can still raise
there): unconditionally for `step_matching` and `impulse_matching`, whenever
`2 + wc*Te ≠ 0` for the first-order bilinear, whenever
`1 + tan(wc*Te/2) ≠ 0` for the homographic, and whenever
`2*w0*Te + 4*Q + Q*(w0*Te)^2 ≠ 0` for the second-order bilinear — in
particular at non-positive parameters such as those of the counterexample;
and `Moving_average` accepts every `N`, producing the zero-initialized
state. -/
theorem construction_never_validates_parameters :
    (∀ Te wc : ℝ, 2 + wc * Te ≠ 0 →
      (LP_first_order.make Te wc "bilinear").isOk = true) ∧
    (∀ Te wc : ℝ, 1 + Real.tan (wc * Te / 2) ≠ 0 →
      (LP_first_order.make Te wc "homographic").isOk = true) ∧
    (∀ Te wc : ℝ, (LP_first_order.make Te wc "step_matching").isOk = true ∧
      (LP_first_order.make Te wc "impulse_matching").isOk = true) ∧
    (∀ Te w0 Q : ℝ, 2 * w0 * Te + 4 * Q + Q * (w0 * Te) ^ 2 ≠ 0 →
      (LP_second_order.make Te w0 Q "bilinear").isOk = true) ∧
    (∀ N : ℕ, Moving_average.make N = ⟨N, List.replicate N 0, 0, 0⟩) :=
  ⟨fun _ _ _ => rfl, fun _ _ _ => rfl, fun _ _ => ⟨rfl, rfl⟩,
    fun _ _ _ _ => rfl, fun _ => rfl⟩

/-- Witness for C6 (amended) at the non-positive parameters of the
counterexample: `Te = -1, wc = 1` gives denominator `1 ≠ 0` and
`Te = -1, w0 = 1, Q = -1` gives denominator `-7 ≠ 0`, and construction
succeeds at both. -/
theorem construction_never_validates_parameters_witness :
    ((2 : ℝ) + 1 * (-1) ≠ 0) ∧
      ((2 * 1 * (-1) + 4 * (-1) + (-1) * (1 * (-1)) ^ 2 : ℝ) ≠ 0) ∧
      (LP_first_order.make (-1) 1 "bilinear").isOk = true ∧
      (LP_second_order.make (-1) 1 (-1) "bilinear").isOk = true :=
  ⟨by norm_num, by norm_num,
    construction_never_validates_parameters.1 (-1) 1 (by norm_num),
    construction_never_validates_parameters.2.2.2.1 (-1) 1 (-1) (by norm_num)⟩

/-! ## Claim theorems: concrete scenario and empty input -/

/-- Claim C9: `Moving_average` with `N = 3` fed `[3, 6, 9, 12]` returns
exactly `[1, 3, 6, 9]`. -/
theorem moving_average_concrete_scenario :
    ((Moving_average.make 3).call [3, 6, 9, 12]).1 = [1, 3, 6, 9] := by
  simp [Moving_average.make, Moving_average.call, Moving_average.reset,
    Moving_average.feed, processSeq]
  norm_num

/-- Claim C10: calling any of the three filters on the empty sequence returns
the empty list and leaves the whole record (coefficients and state, or
buffer, cursor, running sum and `N`) unchanged. -/
theorem call_on_empty_sequence :
    (∀ f : LP_first_order, f.call [] = ([], f)) ∧
      (∀ g : LP_second_order, g.call [] = ([], g)) ∧
      (∀ m : Moving_average, m.call [] = ([], m)) :=
  ⟨fun _ => rfl, fun _ => rfl, fun _ => rfl⟩

/-! ## Claim theorems: the sequence contract -/

/-- Claim C4: for every filter, starting state and input sequence, calling the
filter on the sequence returns one output per element (same length), the
`i`-th output is the result of `feed` on the state reached after the first
`i` elements, the final state is the one reached by feeding the elements one
by one, and processing a concatenation equals processing the parts in order
(batch and streaming use are numerically identical). -/
theorem call_equals_iterated_feed :
    (∀ (f : LP_first_order) (xs : List ℝ),
      (f.call xs).1.length = xs.length ∧
      (f.call xs).2 = feedFold LP_first_order.feed f xs ∧
      (∀ i : ℕ, i < xs.length → (f.call xs).1.getD i 0 =
        (LP_first_order.feed (feedFold LP_first_order.feed f (xs.take i))
          (xs.getD i 0)).1) ∧
      (∀ ys : List ℝ, f.call (xs ++ ys) =
        ((f.call xs).1 ++ (((f.call xs).2).call ys).1,
          (((f.call xs).2).call ys).2))) ∧
    (∀ (g : LP_second_order) (xs : List ℝ),
      (g.call xs).1.length = xs.length ∧
      (g.call xs).2 = feedFold LP_second_order.feed g xs ∧
      (∀ i : ℕ, i < xs.length → (g.call xs).1.getD i 0 =
        (LP_second_order.feed (feedFold LP_second_order.feed g (xs.take i))
          (xs.getD i 0)).1) ∧
      (∀ ys : List ℝ, g.call (xs ++ ys) =
        ((g.call xs).1 ++ (((g.call xs).2).call ys).1,
          (((g.call xs).2).call ys).2))) ∧
    (∀ (m : Moving_average) (xs : List ℝ),
      (m.call xs).1.length = xs.length ∧
      (m.call xs).2 = feedFold Moving_average.feed m xs ∧
      (∀ i : ℕ, i < xs.length → (m.call xs).1.getD i 0 =
        (Moving_average.feed (feedFold Moving_average.feed m (xs.take i))
          (xs.getD i 0)).1) ∧
      (∀ ys : List ℝ, m.call (xs ++ ys) =
        ((m.call xs).1 ++ (((m.call xs).2).call ys).1,
          (((m.call xs).2).call ys).2))) := by
  refine ⟨fun f xs => ?_, fun g xs => ?_, fun m xs => ?_⟩ <;>
    exact ⟨processSeq_length _ xs _, processSeq_state _ xs _,
      fun i hi => processSeq_getD _ xs _ i hi,
      fun ys => processSeq_append _ xs ys _⟩

/-- Witness for C4: second output of `Moving_average(2)` on `[5, 7]` is the
result of `feed` on the state reached after the first element. -/
theorem call_equals_iterated_feed_witness :
    (1 < ([5, 7] : List ℝ).length) ∧
      ((Moving_average.make 2).call [5, 7]).1.getD 1 0 =
        (Moving_average.feed
          (feedFold Moving_average.feed (Moving_average.make 2)
            (([5, 7] : List ℝ).take 1))
          (([5, 7] : List ℝ).getD 1 0)).1 :=
  ⟨by simp,
    (call_equals_iterated_feed.2.2 (Moving_average.make 2) [5, 7]).2.2.1 1 (by simp)⟩

/-! ## Claim theorems: reset -/

theorem lp1_reset_after_call {Te wc : ℝ} {tr : String}
    {f : LP_first_order} (h : LP_first_order.make Te wc tr = .ok f)
    (ys : List ℝ) : ((f.call ys).2).reset = f := by
  obtain ⟨hy, hx⟩ := lp1_make_state h
  obtain ⟨c1, c2, c3⟩ := lp1_call_coeffs ys f
  cases f
  simp_all [LP_first_order.reset, LP_first_order.mk.injEq]

theorem lp2_reset_after_call {Te w0 Q : ℝ} {tr : String}
    {g : LP_second_order} (h : LP_second_order.make Te w0 Q tr = .ok g)
    (ys : List ℝ) : ((g.call ys).2).reset = g := by
  obtain ⟨hy1, hy2, hx1, hx2⟩ := lp2_make_state h
  obtain ⟨c1, c2, c3, c4, c5⟩ := lp2_call_coeffs ys g
  cases g
  simp_all [LP_second_order.reset, LP_second_order.mk.injEq]

theorem ma_reset_after_call (N : ℕ) (ys : List ℝ) :
    (((Moving_average.make N).call ys).2).reset = Moving_average.make N := by
  have hN := Moving_average.call_N ys (Moving_average.make N)
  simp [Moving_average.reset, Moving_average.make, Moving_average.mk.injEq] at hN ⊢
  simp [hN]

/-- Claim C7: `reset` zeroes every internal state variable (previous
inputs/outputs; for the moving average the buffer, cursor and running sum),
never fails, and leaves the derived coefficients and the window length `N`
unchanged; consequently a filter constructed by `make`, fed any sequence and
then reset produces on any further sequence exactly the outputs of the
freshly constructed filter. -/
theorem reset_zeroes_state_and_replays :
    (∀ f : LP_first_order, f.reset.Cy1 = f.Cy1 ∧ f.reset.Cx0 = f.Cx0 ∧
      f.reset.Cx1 = f.Cx1 ∧ f.reset.y_k1 = 0 ∧ f.reset.x_k1 = 0) ∧
    (∀ g : LP_second_order, g.reset.Cy1 = g.Cy1 ∧ g.reset.Cy2 = g.Cy2 ∧
      g.reset.Cx0 = g.Cx0 ∧ g.reset.Cx1 = g.Cx1 ∧ g.reset.Cx2 = g.Cx2 ∧
      g.reset.y_k1 = 0 ∧ g.reset.y_k2 = 0 ∧ g.reset.x_k1 = 0 ∧
      g.reset.x_k2 = 0) ∧
    (∀ m : Moving_average, m.reset.N = m.N ∧
      m.reset.buffer = List.replicate m.N 0 ∧ m.reset.i = 0 ∧
      m.reset.y_k0 = 0) ∧
    (∀ (Te wc : ℝ) (tr : String) (f : LP_first_order),
      LP_first_order.make Te wc tr = .ok f →
      ∀ ys xs : List ℝ, (((f.call ys).2).reset).call xs = f.call xs) ∧
    (∀ (Te w0 Q : ℝ) (tr : String) (g : LP_second_order),
      LP_second_order.make Te w0 Q tr = .ok g →
      ∀ ys xs : List ℝ, (((g.call ys).2).reset).call xs = g.call xs) ∧
    (∀ (N : ℕ) (ys xs : List ℝ),
      ((((Moving_average.make N).call ys).2).reset).call xs =
        (Moving_average.make N).call xs) := by
  refine ⟨fun f => ⟨rfl, rfl, rfl, rfl, rfl⟩,
    fun g => ⟨rfl, rfl, rfl, rfl, rfl, rfl, rfl, rfl, rfl⟩,
    fun m => ⟨rfl, rfl, rfl, rfl⟩, ?_, ?_, ?_⟩
  · intro Te wc tr f h ys xs
    rw [lp1_reset_after_call h ys]
  · intro Te w0 Q tr g h ys xs
    rw [lp2_reset_after_call h ys]
  · intro N ys xs
    rw [ma_reset_after_call N ys]

/-- Witness for C7: the bilinear first-order filter at `Te = wc = 1`, fed
`[1]`, reset, then fed `[2]`, gives the same result as feeding `[2]` fresh. -/
theorem reset_zeroes_state_and_replays_witness :
    ((((LP_first_order.mk ((2 - 1 * 1) / (2 + 1 * 1)) (1 * 1 / (2 + 1 * 1))
          (1 * 1 / (2 + 1 * 1)) 0 0).call [1]).2).reset).call [2] =
      (LP_first_order.mk ((2 - 1 * 1) / (2 + 1 * 1)) (1 * 1 / (2 + 1 * 1))
          (1 * 1 / (2 + 1 * 1)) 0 0).call [2] :=
  reset_zeroes_state_and_replays.2.2.2.1 1 1 "bilinear" _ rfl [1] [2]

/-! ## Claim theorems: the moving-average invariant -/

theorem sum_map_div (l : List ℝ) (c : ℝ) : (l.map (· / c)).sum = l.sum / c := by
  induction l with
  | nil => simp
  | cons x l ih => simp [List.sum_cons, ih, add_div]

theorem maWindow_nil (N : ℕ) : maWindow N [] = List.replicate N 0 := by
  simp [maWindow]

theorem maWindow_snoc (N : ℕ) (hN : 1 ≤ N) (xs : List ℝ) (x : ℝ) :
    maWindow N (xs ++ [x]) = (maWindow N xs).drop 1 ++ [x] := by
  unfold maWindow
  rw [← List.append_assoc, List.drop_append_eq_append_drop, List.drop_drop]
  have h0 : xs.length + 1 - (N + xs.length) = 0 := by omega
  simp [h0]

theorem maWindow_of_le (N : ℕ) (xs : List ℝ) (h : N ≤ xs.length) :
    maWindow N xs = xs.drop (xs.length - N) := by
  unfold maWindow
  rw [List.drop_append_eq_append_drop, List.drop_replicate]
  have h1 : N - xs.length = 0 := by omega
  simp [h1]

theorem MAinv_init (N : ℕ) : MAinv N [] (Moving_average.make N) := by
  unfold MAinv Moving_average.make Moving_average.reset
  refine ⟨rfl, by simp, by simp, ?_, by simp⟩
  simp [maWindow_nil, List.map_replicate]

theorem MAinv_step (N : ℕ) (hN : 1 ≤ N) (xs : List ℝ) (m : Moving_average)
    (h : MAinv N xs m) (x : ℝ) : MAinv N (xs ++ [x]) ((m.feed x).2) := by
  obtain ⟨Nm, b, i, y⟩ := m
  obtain ⟨hNm, hlen, hi, hrot, hy⟩ := h
  simp only at hNm hlen hi hrot hy
  have hNN : N = Nm := hNm.symm
  subst hNN
  have hiN : i < N := by rw [hi]; exact Nat.mod_lt _ hN
  have hib : i < b.length := by rw [hlen]; exact hiN
  have hset : b.set i (x / (N : ℝ)) =
      b.take i ++ (x / (N : ℝ)) :: b.drop (i + 1) :=
    List.set_eq_take_cons_drop _ hib
  have hbdec : b = b.take i ++ b[i] :: b.drop (i + 1) := by
    conv_lhs => rw [← List.take_append_drop i b]
    rw [List.drop_eq_getElem_cons hib]
  have hlt : (b.take i).length = i := by
    simp [List.length_take]
    omega
  have hld : (b.drop i).length = N - i := by simp [hlen]
  have hfeed : ((Moving_average.mk N b i y).feed x).2 =
      Moving_average.mk N (b.set i (x / (N : ℝ)))
        (if N ≤ i + 1 then 0 else i + 1)
        (y - b.getD i 0 + (b.set i (x / (N : ℝ))).getD i 0) := rfl
  rw [hfeed]
  unfold MAinv
  refine ⟨rfl, by simp [hlen], ?_, ?_, ?_⟩
  · -- cursor advances modulo N
    show (if N ≤ i + 1 then 0 else i + 1) = (xs ++ [x]).length % N
    rw [List.length_append, List.length_cons, List.length_nil]
    by_cases hc : N ≤ i + 1
    · rw [if_pos hc]
      have hN1 : i + 1 = N := by omega
      rw [← Nat.mod_add_mod, ← hi, hN1, Nat.mod_self]
    · rw [if_neg hc]
      rw [← Nat.mod_add_mod, ← hi, Nat.mod_eq_of_lt (by omega)]
  · -- circular rotation tracks the window
    show (b.set i (x / (N : ℝ))).drop (if N ≤ i + 1 then 0 else i + 1) ++
        (b.set i (x / (N : ℝ))).take (if N ≤ i + 1 then 0 else i + 1) =
      (maWindow N (xs ++ [x])).map (· / (N : ℝ))
    rw [maWindow_snoc N hN, List.map_append, List.map_drop, ← hrot]
    rw [List.drop_append_eq_append_drop, List.drop_drop, hld]
    have h10 : 1 - (N - i) = 0 := by omega
    rw [h10, List.drop_zero]
    by_cases hc : N ≤ i + 1
    · rw [if_pos hc]
      have hdropN : b.drop (i + 1) = [] := List.drop_eq_nil_of_le (by omega)
      simp [hset, hdropN]
    · rw [if_neg hc]
      rw [hset, List.drop_append_eq_append_drop, List.take_append_eq_append_take,
        hlt]
      have ha : (b.take i).drop (i + 1) = [] := List.drop_eq_nil_of_le (by omega)
      have hb2 : (b.take i).take (i + 1) = b.take i :=
        List.take_of_length_le (by omega)
      have hc1 : i + 1 - i = 1 := by omega
      simp [ha, hb2, hc1]
  · -- running sum is the buffer sum
    show y - b.getD i 0 + (b.set i (x / (N : ℝ))).getD i 0 =
      (b.set i (x / (N : ℝ))).sum
    have hgd : b.getD i 0 = b[i] := List.getD_eq_getElem b 0 hib
    have hgd2 : (b.set i (x / (N : ℝ))).getD i 0 = x / (N : ℝ) := by
      rw [List.getD_eq_getElem _ 0 (by simp [hib]), List.getElem_set_self]
    have hsum1 : b.sum = (b.take i).sum + (b[i] + (b.drop (i + 1)).sum) := by
      have h := congrArg List.sum hbdec
      rwa [List.sum_append, List.sum_cons] at h
    have hsum2 : (b.set i (x / (N : ℝ))).sum =
        (b.take i).sum + (x / (N : ℝ) + (b.drop (i + 1)).sum) := by
      have h := congrArg List.sum hset
      rwa [List.sum_append, List.sum_cons] at h
    rw [hy, hgd, hgd2, hsum1, hsum2]
    ring

theorem call_snoc {σ : Type} (step : σ → ℝ → ℝ × σ) (s : σ) (xs : List ℝ) (x : ℝ) :
    (processSeq step s (xs ++ [x])).2 = (step (processSeq step s xs).2 x).2 := by
  rw [processSeq_append]
  rfl

theorem MAinv_call (N : ℕ) (hN : 1 ≤ N) (xs : List ℝ) :
    MAinv N xs (((Moving_average.make N).call xs).2) := by
  induction xs using List.reverseRecOn with
  | nil => exact MAinv_init N
  | append_singleton ys y ih =>
    have hstep := MAinv_step N hN ys _ ih y
    show MAinv N (ys ++ [y])
      ((processSeq Moving_average.feed (Moving_average.make N) (ys ++ [y])).2)
    rw [call_snoc]
    exact hstep

theorem sum_rotation (b : List ℝ) (i : ℕ) :
    (b.drop i ++ b.take i).sum = b.sum := by
  rw [List.sum_append, add_comm, ← List.sum_append, List.take_append_drop]

theorem y_after_call (N : ℕ) (hN : 1 ≤ N) (xs : List ℝ) :
    (((Moving_average.make N).call xs).2).y_k0 = (maWindow N xs).sum / N := by
  obtain ⟨hNm, hlen, hi, hrot, hy⟩ := MAinv_call N hN xs
  rw [hy, ← sum_rotation _ (((Moving_average.make N).call xs).2).i, hrot,
    sum_map_div]

/-- Claim C1: for window length `N ≥ 1` and every fed sequence, the running
sum `y_k0` (both the stored state and the value returned by the next `feed`)
equals the arithmetic mean of the last `N` fed inputs with not-yet-fed inputs
counting as zero; in particular after at least `N` samples it is the exact
mean of the last `N` fed samples. -/
theorem moving_average_running_mean (N : ℕ) (hN : 1 ≤ N) (xs : List ℝ) :
    (((Moving_average.make N).call xs).2).y_k0 = (maWindow N xs).sum / N ∧
    (∀ x : ℝ, ((((Moving_average.make N).call xs).2).feed x).1 =
      (maWindow N (xs ++ [x])).sum / N) ∧
    (N ≤ xs.length →
      (((Moving_average.make N).call xs).2).y_k0 =
        (xs.drop (xs.length - N)).sum / N) := by
  refine ⟨y_after_call N hN xs, ?_, ?_⟩
  · intro x
    have h := y_after_call N hN (xs ++ [x])
    have hs : ((Moving_average.make N).call (xs ++ [x])).2 =
        ((((Moving_average.make N).call xs).2).feed x).2 := call_snoc _ _ _ _
    rw [hs] at h
    exact h
  · intro hle
    rw [y_after_call N hN xs, maWindow_of_le N xs hle]

/-- Witness for C1 at `N = 3`, inputs `[3, 6, 9, 12]`. -/
theorem moving_average_running_mean_witness :
    (1 ≤ 3) ∧ ((3 ≤ ([3, 6, 9, 12] : List ℝ).length) ∧
      (((Moving_average.make 3).call [3, 6, 9, 12]).2).y_k0 =
        (([3, 6, 9, 12] : List ℝ).drop (([3, 6, 9, 12] : List ℝ).length - 3)).sum / 3) :=
  ⟨by norm_num, by simp,
    (moving_average_running_mean 3 (by norm_num) [3, 6, 9, 12]).2.2 (by simp)⟩

/-! ## Claim theorems: response to a constant input -/

theorem iterateConst_coeffs (f : LP_first_order) (c : ℝ) :
    ∀ k, (f.iterateConst c k).Cy1 = f.Cy1 ∧ (f.iterateConst c k).Cx0 = f.Cx0 ∧
      (f.iterateConst c k).Cx1 = f.Cx1
  | 0 => ⟨rfl, rfl, rfl⟩
  | k + 1 => by
    obtain ⟨h1, h2, h3⟩ := iterateConst_coeffs f c k
    exact ⟨h1, h2, h3⟩

theorem iterateConst_x (f : LP_first_order) (c : ℝ) (k : ℕ) :
    (f.iterateConst c (k + 1)).x_k1 = c := rfl

theorem constOutput_formula (f : LP_first_order) (c : ℝ)
    (hy : f.y_k1 = 0) (hx : f.x_k1 = 0)
    (hsum : f.Cy1 + f.Cx0 + f.Cx1 = 1) (k : ℕ) :
    f.constOutput c k = c + f.Cy1 ^ k * (f.Cx0 * c - c) := by
  induction k with
  | zero =>
    show ((f.feed c).2).y_k1 = _
    show f.Cy1 * f.y_k1 + f.Cx0 * c + f.Cx1 * f.x_k1 = _
    rw [hy, hx]
    ring
  | succ k ih =>
    obtain ⟨h1, h2, h3⟩ := iterateConst_coeffs f c (k + 1)
    have hx1 := iterateConst_x f c k
    have hstep : f.constOutput c (k + 1) =
        (f.iterateConst c (k + 1)).Cy1 * (f.iterateConst c (k + 1)).y_k1 +
          (f.iterateConst c (k + 1)).Cx0 * c +
          (f.iterateConst c (k + 1)).Cx1 * (f.iterateConst c (k + 1)).x_k1 := rfl
    rw [hstep, h1, h2, h3, iterateConst_x f c k]
    have hprev : (f.iterateConst c (k + 1)).y_k1 = f.constOutput c k := rfl
    rw [hprev, ih]
    have hc : f.Cx1 = 1 - f.Cy1 - f.Cx0 := by linarith
    rw [hc]
    ring

theorem constOutput_tendsto (f : LP_first_order) (c : ℝ)
    (hy : f.y_k1 = 0) (hx : f.x_k1 = 0) (habs : |f.Cy1| < 1)
    (hsum : f.Cy1 + f.Cx0 + f.Cx1 = 1) :
    Tendsto (f.constOutput c) atTop (nhds c) := by
  have hform : f.constOutput c = fun k => c + f.Cy1 ^ k * (f.Cx0 * c - c) :=
    funext (constOutput_formula f c hy hx hsum)
  rw [hform]
  have h0 : Tendsto (fun k : ℕ => f.Cy1 ^ k) atTop (nhds 0) :=
    tendsto_pow_atTop_nhds_zero_iff.mpr habs
  have h1 := (h0.mul_const (f.Cx0 * c - c)).const_add c
  simpa using h1

theorem abs_ratio_lt_one {a : ℝ} (ha : 0 < a) : |(2 - a) / (2 + a)| < 1 := by
  rw [abs_lt]
  constructor
  · rw [lt_div_iff₀ (by linarith)]
    linarith
  · rw [div_lt_one (by linarith)]
    linarith

theorem abs_homographic_lt_one {t : ℝ} (ht : 0 < t) : |(1 - t) / (1 + t)| < 1 := by
  rw [abs_lt]
  constructor
  · rw [lt_div_iff₀ (by linarith)]
    linarith
  · rw [div_lt_one (by linarith)]
    linarith

theorem homographic_sum {t : ℝ} (ht : 1 + t ≠ 0) :
    (1 - t) / (1 + t) + t / (1 + t) + t / (1 + t) = 1 := by
  field_simp

theorem bilinear_sum {a : ℝ} (ha : 0 < a) :
    (2 - a) / (2 + a) + a / (2 + a) + a / (2 + a) = 1 := by
  have h : (2 : ℝ) + a ≠ 0 := by linarith
  field_simp

theorem abs_exp_neg_lt_one {a : ℝ} (ha : 0 < a) : |Real.exp (-a)| < 1 := by
  rw [abs_of_pos (Real.exp_pos _)]
  rw [Real.exp_lt_one_iff]
  linarith

/-- Claim C8 as amended: for every `Te > 0` and `wc > 0`, feeding the
constant input `c` to the first-order filter converges to `c` under the
bilinear, step_matching and impulse_matching transforms; under the
homographic transform the same holds provided additionally `wc*Te < π`
(outside that range the tangent makes `|Cy1| ≥ 1` possible and the output
can diverge). -/
theorem constant_input_converges (Te wc c : ℝ) (hT : 0 < Te) (hw : 0 < wc) :
    (∀ f : LP_first_order, LP_first_order.make Te wc "bilinear" = .ok f →
      Tendsto (f.constOutput c) atTop (nhds c)) ∧
    (wc * Te < π → ∀ f : LP_first_order,
      LP_first_order.make Te wc "homographic" = .ok f →
      Tendsto (f.constOutput c) atTop (nhds c)) ∧
    (∀ f : LP_first_order, LP_first_order.make Te wc "step_matching" = .ok f →
      Tendsto (f.constOutput c) atTop (nhds c)) ∧
    (∀ f : LP_first_order, LP_first_order.make Te wc "impulse_matching" = .ok f →
      Tendsto (f.constOutput c) atTop (nhds c)) := by
  have ha : 0 < wc * Te := mul_pos hw hT
  refine ⟨?_, ?_, ?_, ?_⟩
  · intro f hf
    injection hf with hf'
    subst hf'
    exact constOutput_tendsto _ c rfl rfl (abs_ratio_lt_one ha) (bilinear_sum ha)
  · intro hpi f hf
    injection hf with hf'
    subst hf'
    have ht : 0 < Real.tan (wc * Te / 2) :=
      Real.tan_pos_of_pos_of_lt_pi_div_two (by linarith) (by linarith)
    exact constOutput_tendsto _ c rfl rfl (abs_homographic_lt_one ht)
      (homographic_sum (ne_of_gt (by linarith)))
  · intro f hf
    injection hf with hf'
    subst hf'
    refine constOutput_tendsto _ c rfl rfl (abs_exp_neg_lt_one ha) ?_
    show Real.exp (-(wc * Te)) + 0 + (1 - Real.exp (-(wc * Te))) = 1
    ring
  · intro f hf
    injection hf with hf'
    subst hf'
    refine constOutput_tendsto _ c rfl rfl (abs_exp_neg_lt_one ha) ?_
    show Real.exp (-(wc * Te)) + (1 - Real.exp (-(wc * Te))) + 0 = 1
    ring

theorem tan_two_pi_div_three : Real.tan (4 * π / 3 * 1 / 2) = -Real.sqrt 3 := by
  have harg : 4 * π / 3 * 1 / 2 = π - π / 3 := by ring
  rw [harg, Real.tan_eq_sin_div_cos, Real.sin_pi_sub, Real.cos_pi_sub,
    Real.sin_pi_div_three, Real.cos_pi_div_three]
  ring

theorem one_lt_sqrt_three : (1 : ℝ) < Real.sqrt 3 := by
  have h := Real.sqrt_lt_sqrt (by norm_num : (0:ℝ) ≤ 1) (by norm_num : (1:ℝ) < 3)
  rwa [Real.sqrt_one] at h

/-- Counterexample to claim C8 as stated: with the homographic transform at
`Te = 1` and `wc = 4π/3` (both positive), `tan(wc*Te/2) = tan(2π/3) = -√3`,
so `Cy1 = -(2+√3)` has magnitude greater than one and feeding the constant
input `1` yields outputs that do not converge to `1`. -/
theorem constant_input_homographic_diverges :
    (0 < (1 : ℝ)) ∧ (0 < 4 * π / 3) ∧
    LP_first_order.make 1 (4 * π / 3) "homographic" =
      .ok ((LP_first_order.reset ⟨0, 0, 0, 0, 0⟩).init_homographic 1
        (4 * π / 3)) ∧
    ¬ Tendsto (((LP_first_order.reset ⟨0, 0, 0, 0, 0⟩).init_homographic 1
      (4 * π / 3)).constOutput 1) atTop (nhds 1) := by
  refine ⟨by norm_num, by positivity, rfl, ?_⟩
  set F := (LP_first_order.reset ⟨0, 0, 0, 0, 0⟩).init_homographic 1 (4 * π / 3)
    with hF
  have hs3 := one_lt_sqrt_three
  have htan : Real.tan (4 * π / 3 * 1 / 2) = -Real.sqrt 3 := tan_two_pi_div_three
  have hCy1 : F.Cy1 = (1 - Real.tan (4 * π / 3 * 1 / 2))
      / (1 + Real.tan (4 * π / 3 * 1 / 2)) := rfl
  have hCx0 : F.Cx0 = Real.tan (4 * π / 3 * 1 / 2)
      / (1 + Real.tan (4 * π / 3 * 1 / 2)) := rfl
  have hne : 1 + Real.tan (4 * π / 3 * 1 / 2) ≠ 0 := by
    rw [htan]
    intro hcontra
    have : Real.sqrt 3 = 1 := by linarith
    linarith
  have hsum : F.Cy1 + F.Cx0 + F.Cx1 = 1 := homographic_sum hne
  have hform := constOutput_formula F 1 rfl rfl hsum
  -- Cy1 < -1
  have hCy1lt : F.Cy1 < -1 := by
    rw [hCy1, htan]
    rw [div_lt_iff_of_neg (by linarith)]
    linarith
  have habs : 1 < |F.Cy1| := by
    rw [abs_of_neg (by linarith)]
    linarith
  -- d ≠ 0
  have hd : F.Cx0 * 1 - 1 ≠ 0 := by
    have hval : F.Cx0 * 1 - 1 = -1 / (1 + Real.tan (4 * π / 3 * 1 / 2)) := by
      rw [hCx0, mul_one, div_sub_one hne]
      congr 1
      ring
    rw [hval]
    exact div_ne_zero (by norm_num) hne
  intro htend
  have h1 : Tendsto (fun k => (F.constOutput 1 k - 1) / (F.Cx0 * 1 - 1)) atTop
      (nhds ((1 - 1) / (F.Cx0 * 1 - 1))) := (htend.sub_const 1).div_const _
  have h2 : (fun k => (F.constOutput 1 k - 1) / (F.Cx0 * 1 - 1)) =
      fun k => F.Cy1 ^ k := by
    funext k
    rw [hform k, add_sub_cancel_left]
    exact mul_div_cancel_right₀ _ hd
  rw [h2] at h1
  simp only [sub_self, zero_div] at h1
  have := tendsto_pow_atTop_nhds_zero_iff.mp h1
  linarith

/-- Witness for C8 (amended) at `Te = 1`, `wc = 1`, `c = 5`, bilinear. -/
theorem constant_input_converges_witness :
    (0 < (1 : ℝ)) ∧
      Tendsto (((LP_first_order.reset ⟨0, 0, 0, 0, 0⟩).init_bilinear 1
        1).constOutput 5) atTop (nhds 5) :=
  ⟨by norm_num,
    (constant_input_converges 1 1 5 (by norm_num) (by norm_num)).1 _ rfl⟩

end Filters

end
